import Mathlib

/-!
Verification of the core engine of `SedecordleSolver.py`: pattern
computation, entropy scoring, best-guess selection, per-board feedback
filtering and constraint cleanup, shallowly embedded in Lean 4.

Words are modelled as `List Char`; the repository only ever builds words of
length 5 (`load_valid_words` filters to 5-letter entries). Python sets are
modelled as `List Char` with set-style insertion and removal (membership is
the only operation the filters use).
-/

namespace Sedec

/-- Feedback symbol: `C` = Correct, `P` = Present, `A` = Absent
(the `'C'`/`'P'`/`'A'` characters of the Python source). -/
inductive Sym where
  | C
  | P
  | A
deriving DecidableEq, Repr

abbrev Word := List Char

/-- `sum(1 for t in target if t == g)`: occurrences of letter `g` in `target`. -/
def countLetter (target : List Char) (g : Char) : Nat :=
  (target.filter (fun t => decide (t = g))).length

/-- First pass of `get_pattern`: pair each guess letter (up to the common
length, as Python's `zip`) with whether its position is Correct. -/
def firstPass (guess target : List Char) : List (Char × Bool) :=
  (guess.zip target).map (fun p => (p.1, decide (p.1 = p.2)))

/-- The `counts` table after the first pass of `get_pattern`: for each letter
`c`, the number of positions marked Correct whose (target) letter is `c`. -/
def correctCounts (guess target : List Char) (c : Char) : Nat :=
  ((guess.zip target).filter (fun p => decide (p.1 = p.2) && decide (p.2 = c))).length

/-- Second pass of `get_pattern`: walk the marked guess letters; a Correct
mark stays `C`; otherwise emit `P` (and consume one occurrence) while the
target still has unconsumed occurrences of the letter, else `A`. -/
def secondPass (target : List Char) : List (Char × Bool) → (Char → Nat) → List Sym
  | [], _ => []
  | (g, isC) :: rest, counts =>
    if isC then
      Sym.C :: secondPass target rest counts
    else if counts g < countLetter target g then
      Sym.P :: secondPass target rest (fun c => if c = g then counts c + 1 else counts c)
    else
      Sym.A :: secondPass target rest counts

/-- `SedecordleSolver.get_pattern`: two-pass Wordle feedback pattern. -/
def get_pattern (guess target : List Char) : List Sym :=
  secondPass target (firstPass guess target) (correctCounts guess target)

example : get_pattern "CRANE".toList "TRACE".toList
    = [Sym.P, Sym.C, Sym.C, Sym.A, Sym.C] := by decide

example : get_pattern "TRACE".toList "TRACE".toList
    = [Sym.C, Sym.C, Sym.C, Sym.C, Sym.C] := by decide

/-- One board of the 16-board session: the dictionary
`{'possible': ..., 'correct': ..., 'present': ..., 'absent': ...}`.
`correct` holds `'?'` at unknown positions; `present`/`absent` are Python
sets, modelled as lists used only through membership. -/
structure Game where
  possible : List Word
  correct : List Char
  present : List Char
  absent : List Char
deriving DecidableEq, Repr

/-- The board a session starts with: full answer universe, no constraints. -/
def initGame (answers : List Word) : Game :=
  { possible := answers, correct := ['?', '?', '?', '?', '?'],
    present := [], absent := [] }

/-- One iteration of the per-position state update inside `update_games`:
`C` records the letter at its position and discards it from `present`;
`P` inserts it into `present`; `A` inserts it into `absent`. -/
def applyEntry (gm : Game) (i : Nat) (e : Char × Sym) : Game :=
  match e.2 with
  | Sym.C =>
      { gm with correct := gm.correct.set i e.1,
                present := gm.present.filter (fun c => !(decide (c = e.1))) }
  | Sym.P => { gm with present := gm.present.insert e.1 }
  | Sym.A => { gm with absent := gm.absent.insert e.1 }

/-- The `for i, (letter, color) in enumerate(feedback)` loop of
`update_games`, before the candidate filter runs. -/
def updateConstraints (g : Game) (feedback : List (Char × Sym)) : Game :=
  feedback.enum.foldl (fun gm p => applyEntry gm p.1 p.2) g

/-- The `valid` flag computed for one candidate `word` inside
`update_games`: the four sequential checks of the Python filter. -/
def validWord (g : Game) (w : Word) : Bool :=
  (g.correct.enum.all fun p => decide (p.2 = '?') || decide (w[p.1]? = some p.2)) &&
  (g.present.all fun p => decide (p ∈ w)) &&
  !(g.absent.any fun a =>
      !(decide (a ∈ g.correct)) && !(decide (a ∈ g.present)) && decide (a ∈ w)) &&
  !(w.enum.any fun p => decide (p.2 ∈ g.present) && decide (g.correct[p.1]? = some p.2))

/-- `update_games` restricted to a single board and its feedback: skip on
empty feedback, otherwise update the constraints and replace `possible`
with the candidates passing the filter. -/
def update_game (g : Game) (feedback : List (Char × Sym)) : Game :=
  if feedback.isEmpty then g
  else
    let g' := updateConstraints g feedback
    { g' with possible := g'.possible.filter (validWord g') }

/-- `SedecordleSolver.update_games`: each board is updated with its own
feedback entry. -/
def update_games (games : List Game) (feedbacks : List (List (Char × Sym))) : List Game :=
  List.zipWith update_game games feedbacks

/-- `SedecordleSolver.clean_constraints` on one board: drop `present`
letters already recorded in `correct`, then drop `absent` letters that are
in `correct` or in the already-cleaned `present`. -/
def clean_game (g : Game) : Game :=
  let present1 := g.present.filter (fun p => !(decide (p ∈ g.correct)))
  { g with present := present1,
           absent := g.absent.filter
             (fun a => !(decide (a ∈ g.correct)) && !(decide (a ∈ present1))) }

/-- `SedecordleSolver.clean_constraints` across all boards. -/
def clean_constraints (games : List Game) : List Game :=
  games.map clean_game

/-- `SedecordleSolver.get_pattern_cached` with the class-level
`_pattern_cache` made explicit: look the exact `(guess, target)` key up,
computing and storing the pattern on a miss. Returns the new cache and the
answer. -/
def get_pattern_cached (cache : List ((Word × Word) × List Sym)) (guess target : Word) :
    List ((Word × Word) × List Sym) × List Sym :=
  match cache.find? (fun e => decide (e.1 = (guess, target))) with
  | some e => (cache, e.2)
  | none =>
      let p := get_pattern guess target
      ((((guess, target), p) :: cache), p)

/-- The entropy one board contributes inside `calculate_entropy`: tally the
pattern of `word` against every remaining candidate and take the Shannon
entropy of the tally (`-(count/total) * log2(count/total)` summed over the
distinct patterns). Real-valued model of the Python float computation. -/
noncomputable def boardEntropy (word : Word) (st : Game) : ℝ :=
  let pats := st.possible.map (fun p => get_pattern word p)
  let total : ℝ := (st.possible.length : ℝ)
  (pats.dedup.map (fun q =>
    -(((pats.filter (fun r => decide (r = q))).length : ℝ) / total)
      * Real.logb 2 (((pats.filter (fun r => decide (r = q))).length : ℝ) / total))).sum

/-- `SedecordleSolver.calculate_entropy`: total entropy over the boards,
skipping boards whose candidate set is empty. -/
noncomputable def calculate_entropy (word : Word) (game_states : List Game) : ℝ :=
  game_states.foldl
    (fun acc st => if st.possible.isEmpty then acc else acc + boardEntropy word st) 0

/-- The scan loop of `get_best_guess`: running best word and best score,
starting from `(None, -inf)`; a word replaces the best only on a strictly
greater score. Scores live in `EReal` so `-float('inf')` is `⊥`. -/
noncomputable def bestLoop (score : Word → ℝ) :
    List Word → Option Word × EReal → Option Word × EReal
  | [], acc => acc
  | w :: ws, acc =>
    if acc.2 < ((score w : ℝ) : EReal) then
      bestLoop score ws (some w, ((score w : ℝ) : EReal))
    else
      bestLoop score ws acc

/-- `SedecordleSolver.get_best_guess`: `None` when no board is active,
otherwise the left-to-right strict-improvement scan over the first 2316
allowed guesses, scored by `calculate_entropy` against the active boards. -/
noncomputable def get_best_guess (allowed : List Word) (games : List Game) : Option Word :=
  let active := games.filter (fun g => !g.possible.isEmpty)
  if active.isEmpty then none
  else (bestLoop (fun w => calculate_entropy w active) (allowed.take 2316) (none, ⊥)).1

/-! ### Helper lemmas -/

theorem applyEntry_possible (gm : Game) (i : Nat) (e : Char × Sym) :
    (applyEntry gm i e).possible = gm.possible := by
  obtain ⟨c, s⟩ := e
  cases s <;> rfl

theorem applyEntry_correct_of_C (gm : Game) (i : Nat) (e : Char × Sym) :
    (applyEntry gm i e).correct = gm.correct ∨
      ∃ c, e.2 = Sym.C ∧ (applyEntry gm i e).correct = gm.correct.set i c := by
  obtain ⟨c, s⟩ := e
  cases s with
  | C => exact Or.inr ⟨c, rfl, rfl⟩
  | P => exact Or.inl rfl
  | A => exact Or.inl rfl

theorem foldl_applyEntry_possible (l : List (Nat × (Char × Sym))) :
    ∀ g : Game, (l.foldl (fun gm p => applyEntry gm p.1 p.2) g).possible = g.possible := by
  induction l with
  | nil => intro g; rfl
  | cons p rest ih =>
      intro g
      rw [List.foldl_cons, ih, applyEntry_possible]

theorem updateConstraints_possible (g : Game) (fb : List (Char × Sym)) :
    (updateConstraints g fb).possible = g.possible :=
  foldl_applyEntry_possible _ g

theorem filter_self_idem (p : Char → Bool) (l : List Char) :
    (l.filter p).filter p = l.filter p := by
  rw [List.filter_filter]
  simp

/-! ### Claim theorems (easy group) -/

/-- C2 (counterexample): `get_pattern` applied to guess "CRANE" and target
"TRACE" does not return the pattern (Absent, Correct, Present, Present,
Correct) stated by the claim. -/
theorem crane_trace_claim_false :
    get_pattern "CRANE".toList "TRACE".toList
      ≠ [Sym.A, Sym.C, Sym.P, Sym.P, Sym.C] := by decide

/-- C2 (amended): `get_pattern` applied to guess "CRANE" and target "TRACE"
returns the pattern (Present, Correct, Correct, Absent, Correct): C is
present elsewhere, R correct, A correct, N absent, E correct. -/
theorem crane_trace_pattern :
    get_pattern "CRANE".toList "TRACE".toList
      = [Sym.P, Sym.C, Sym.C, Sym.A, Sym.C] := by decide

/-- C4: applying feedback to a board only shrinks its candidate list, and a
board whose feedback entry is empty this round is left completely
unchanged (all four fields). -/
theorem update_game_shrinks_and_skips (g : Game) (fb : List (Char × Sym)) :
    (update_game g fb).possible ⊆ g.possible ∧ update_game g [] = g := by
  refine ⟨?_, rfl⟩
  by_cases h : fb.isEmpty
  · simp [update_game, h]
  · intro w hw
    unfold update_game at hw
    rw [if_neg h] at hw
    have hw' : w ∈ (updateConstraints g fb).possible.filter
        (validWord (updateConstraints g fb)) := hw
    have hmem := List.filter_subset' _ hw'
    rwa [updateConstraints_possible] at hmem

/-- Cache soundness invariant: every stored entry is the honest
`get_pattern` value of its key. -/
def CacheOK (cache : List ((Word × Word) × List Sym)) : Prop :=
  ∀ e ∈ cache, e.2 = get_pattern e.1.1 e.1.2

/-- C8: starting from any sound cache, the memoized `get_pattern_cached`
returns exactly what the non-memoized `get_pattern` computes, keeps the
cache sound, and calling it again with the same pair gives the same
result. -/
theorem get_pattern_cached_spec (cache : List ((Word × Word) × List Sym))
    (g t : Word) (hc : CacheOK cache) :
    (get_pattern_cached cache g t).2 = get_pattern g t ∧
    CacheOK (get_pattern_cached cache g t).1 ∧
    (get_pattern_cached (get_pattern_cached cache g t).1 g t).2
      = (get_pattern_cached cache g t).2 := by
  cases hfind : cache.find? (fun e => decide (e.1 = (g, t))) with
  | some e =>
      have hkey : e.1 = (g, t) := by
        have hp := List.find?_some hfind
        simpa using hp
      have hmem : e ∈ cache := List.mem_of_find?_eq_some hfind
      have hval : e.2 = get_pattern g t := by
        rw [hc e hmem, hkey]
      refine ⟨?_, ?_, ?_⟩
      · simp [get_pattern_cached, hfind, hval]
      · simpa [get_pattern_cached, hfind] using hc
      · simp [get_pattern_cached, hfind]
  | none =>
      refine ⟨?_, ?_, ?_⟩
      · simp [get_pattern_cached, hfind]
      · intro e he
        simp only [get_pattern_cached, hfind] at he
        rcases List.mem_cons.mp he with h | h
        · rw [h]
        · exact hc e h
      · have hpos :
            (decide ((((g, t), get_pattern g t) : (Word × Word) × List Sym).1 = (g, t))) = true := by
          simp
        simp [get_pattern_cached, hfind, List.find?_cons_of_pos _ hpos]

/-- C8 witness: a concrete run starting from the empty cache. -/
theorem get_pattern_cached_spec_witness :
    (get_pattern_cached [] "CRANE".toList "TRACE".toList).2
        = get_pattern "CRANE".toList "TRACE".toList ∧
    CacheOK (get_pattern_cached [] "CRANE".toList "TRACE".toList).1 ∧
    (get_pattern_cached (get_pattern_cached [] "CRANE".toList "TRACE".toList).1
        "CRANE".toList "TRACE".toList).2
      = (get_pattern_cached [] "CRANE".toList "TRACE".toList).2 :=
  get_pattern_cached_spec [] "CRANE".toList "TRACE".toList
    (fun e he => absurd he (List.not_mem_nil e))

/-- C9: cleaning constraints twice yields the same `present` and `absent`
as cleaning once, on every board state. -/
theorem clean_game_idempotent (g : Game) :
    (clean_game (clean_game g)).present = (clean_game g).present ∧
    (clean_game (clean_game g)).absent = (clean_game g).absent := by
  have hpres : (clean_game (clean_game g)).present = (clean_game g).present := by
    show ((clean_game g).present.filter fun p => !(decide (p ∈ (clean_game g).correct)))
        = (clean_game g).present
    have hcor : (clean_game g).correct = g.correct := rfl
    rw [hcor]
    exact filter_self_idem _ g.present
  refine ⟨hpres, ?_⟩
  show ((clean_game g).absent.filter fun a =>
      !(decide (a ∈ (clean_game g).correct))
        && !(decide (a ∈ (clean_game (clean_game g)).present)))
    = (clean_game g).absent
  rw [hpres]
  show (((g.absent.filter fun a =>
      !(decide (a ∈ g.correct)) && !(decide (a ∈ (clean_game g).present))).filter fun a =>
      !(decide (a ∈ g.correct)) && !(decide (a ∈ (clean_game g).present))))
    = (g.absent.filter fun a =>
      !(decide (a ∈ g.correct)) && !(decide (a ∈ (clean_game g).present)))
  exact filter_self_idem _ g.absent

/-! ### Pattern-count invariants (C1) -/

theorem secondPass_C_count (target : List Char) :
    ∀ (ms : List (Char × Bool)) (counts : Char → Nat),
      ((secondPass target ms counts).filter fun s => decide (s = Sym.C)).length
        = (ms.filter fun p => p.2).length := by
  intro ms
  induction ms with
  | nil => intro counts; rfl
  | cons m rest ih =>
      intro counts
      obtain ⟨g, isC⟩ := m
      cases isC with
      | true => simp [secondPass, ih]
      | false =>
          by_cases h2 : counts g < countLetter target g <;>
            simp [secondPass, h2, ih]

theorem secondPass_C_letter (target : List Char) (l : Char) :
    ∀ (ms : List (Char × Bool)) (counts : Char → Nat),
      (((ms.map Prod.fst).zip (secondPass target ms counts)).filter
          fun p => decide (p.1 = l) && decide (p.2 = Sym.C)).length
        = (ms.filter fun p => decide (p.1 = l) && p.2).length := by
  intro ms
  induction ms with
  | nil => intro counts; rfl
  | cons m rest ih =>
      intro counts
      obtain ⟨g, isC⟩ := m
      cases isC with
      | true =>
          by_cases hgl : g = l <;> simp [secondPass, hgl, ih]
      | false =>
          by_cases hgl : g = l
          · subst hgl
            by_cases h2 : counts g < countLetter target g <;> simp [secondPass, h2, ih]
          · by_cases h2 : counts g < countLetter target g <;>
              simp [secondPass, h2, hgl, ih]

theorem secondPass_P_bound (target : List Char) (l : Char) :
    ∀ (ms : List (Char × Bool)) (counts : Char → Nat),
      counts l ≤ countLetter target l →
      counts l + (((ms.map Prod.fst).zip (secondPass target ms counts)).filter
          fun p => decide (p.1 = l) && decide (p.2 = Sym.P)).length
        ≤ countLetter target l := by
  intro ms
  induction ms with
  | nil => intro counts h; simpa using h
  | cons m rest ih =>
      intro counts h
      obtain ⟨g, isC⟩ := m
      cases isC with
      | true =>
          have hr := ih counts h
          by_cases hgl : g = l <;> simpa [secondPass, hgl] using hr
      | false =>
          by_cases hgl : g = l
          · subst hgl
            by_cases h2 : counts g < countLetter target g
            · have hstep : secondPass target ((g, false) :: rest) counts
                  = Sym.P :: secondPass target rest
                      (fun c => if c = g then counts c + 1 else counts c) := by
                simp [secondPass, h2]
              have hred : (fun c => if c = g then counts c + 1 else counts c) g
                  = counts g + 1 := by
                show (if g = g then counts g + 1 else counts g) = counts g + 1
                exact if_pos rfl
              have h' : (fun c => if c = g then counts c + 1 else counts c) g
                  ≤ countLetter target g := by
                rw [hred]
                omega
              have hr := ih (fun c => if c = g then counts c + 1 else counts c) h'
              rw [hred] at hr
              simp only [List.map_cons, hstep, List.zip_cons_cons, List.filter_cons]
              simp
              omega
            · have hstep : secondPass target ((g, false) :: rest) counts
                  = Sym.A :: secondPass target rest counts := by
                simp [secondPass, h2]
              have hr := ih counts h
              simp only [List.map_cons, hstep, List.zip_cons_cons, List.filter_cons]
              simp
              omega
          · by_cases h2 : counts g < countLetter target g
            · have hstep : secondPass target ((g, false) :: rest) counts
                  = Sym.P :: secondPass target rest
                      (fun c => if c = g then counts c + 1 else counts c) := by
                simp [secondPass, h2]
              have hlg : ¬ (l = g) := fun hlg => hgl hlg.symm
              have hred : (fun c => if c = g then counts c + 1 else counts c) l
                  = counts l := by
                show (if l = g then counts l + 1 else counts l) = counts l
                exact if_neg hlg
              have h' : (fun c => if c = g then counts c + 1 else counts c) l
                  ≤ countLetter target l := by
                rw [hred]
                exact h
              have hr := ih (fun c => if c = g then counts c + 1 else counts c) h'
              rw [hred] at hr
              simp only [List.map_cons, hstep, List.zip_cons_cons, List.filter_cons]
              simp [hgl]
              omega
            · have hstep : secondPass target ((g, false) :: rest) counts
                  = Sym.A :: secondPass target rest counts := by
                simp [secondPass, h2]
              have hr := ih counts h
              simp only [List.map_cons, hstep, List.zip_cons_cons, List.filter_cons]
              simp [hgl]
              omega

theorem filter_CP_split (l : Char) (zs : List (Char × Sym)) :
    (zs.filter fun p =>
        decide (p.1 = l) && (decide (p.2 = Sym.C) || decide (p.2 = Sym.P))).length
      = (zs.filter fun p => decide (p.1 = l) && decide (p.2 = Sym.C)).length
        + (zs.filter fun p => decide (p.1 = l) && decide (p.2 = Sym.P)).length := by
  induction zs with
  | nil => rfl
  | cons z rest ih =>
      obtain ⟨c, s⟩ := z
      cases s <;> by_cases hc : c = l <;> simp [hc, ih] <;> omega

theorem filter_correct_pred_eq (l : Char) (zs : List (Char × Char)) :
    (zs.filter fun p => decide (p.1 = l) && decide (p.1 = p.2)).length
      = (zs.filter fun p => decide (p.1 = p.2) && decide (p.2 = l)).length := by
  induction zs with
  | nil => rfl
  | cons z rest ih =>
      obtain ⟨a, b⟩ := z
      by_cases hab : a = b
      · subst hab
        by_cases hal : a = l <;> simp [hal, ih]
      · simp [hab, ih]

theorem correctCounts_le (l : Char) :
    ∀ (guess target : List Char), correctCounts guess target l ≤ countLetter target l := by
  intro guess
  induction guess with
  | nil => intro target; simp [correctCounts]
  | cons a gs ih =>
      intro target
      cases target with
      | nil => simp [correctCounts]
      | cons b ts =>
          have hr := ih ts
          unfold correctCounts countLetter at hr ⊢
          by_cases hbl : b = l
          · subst hbl
            by_cases hab : a = b
            · subst hab
              simp at hr ⊢
              omega
            · simp [hab] at hr ⊢
              omega
          · by_cases hab : a = b
            · subst hab
              simp [hbl] at hr ⊢
              omega
            · simp [hab, hbl] at hr ⊢
              omega

theorem firstPass_map_fst (g t : List Char) (h : g.length ≤ t.length) :
    (firstPass g t).map Prod.fst = g := by
  unfold firstPass
  rw [List.map_map]
  have hc : (Prod.fst ∘ fun p : Char × Char => (p.1, decide (p.1 = p.2))) = Prod.fst := rfl
  rw [hc, List.map_fst_zip g t h]

/-- C1: for 5-letter words, `get_pattern g t` has exactly as many `C`
symbols as there are positions where `g` and `t` agree, and for every
letter `l` the number of guess positions holding `l` marked `C` or `P`
never exceeds the number of occurrences of `l` in the target. -/
theorem get_pattern_counts (g t : List Char) (hg : g.length = 5) (ht : t.length = 5) :
    ((get_pattern g t).filter fun s => decide (s = Sym.C)).length
      = ((g.zip t).filter fun p => decide (p.1 = p.2)).length ∧
    ∀ l : Char,
      ((g.zip (get_pattern g t)).filter
          fun p => decide (p.1 = l) && (decide (p.2 = Sym.C) || decide (p.2 = Sym.P))).length
        ≤ countLetter t l := by
  have hlen : g.length ≤ t.length := by omega
  constructor
  · rw [get_pattern, secondPass_C_count]
    unfold firstPass
    rw [List.filter_map, List.length_map]
    rfl
  · intro l
    have hzip : g.zip (get_pattern g t)
        = ((firstPass g t).map Prod.fst).zip (get_pattern g t) := by
      rw [firstPass_map_fst g t hlen]
    rw [hzip, filter_CP_split]
    have hC : ((((firstPass g t).map Prod.fst).zip (get_pattern g t)).filter
          (fun p => decide (p.1 = l) && decide (p.2 = Sym.C))).length
        = correctCounts g t l := by
      rw [get_pattern, secondPass_C_letter]
      unfold firstPass
      rw [List.filter_map, List.length_map]
      have hpred : ((fun p : Char × Bool => decide (p.1 = l) && p.2)
            ∘ fun p : Char × Char => (p.1, decide (p.1 = p.2)))
          = fun p : Char × Char => decide (p.1 = l) && decide (p.1 = p.2) := rfl
      rw [hpred, filter_correct_pred_eq]
      rfl
    rw [hC]
    have hP := secondPass_P_bound t l (firstPass g t) (correctCounts g t)
      (correctCounts_le l g t)
    rw [get_pattern]
    omega

/-- C1 witness: the counting facts evaluated on the concrete pair
("CRANE", "TRACE") with the letter `E`. -/
theorem get_pattern_counts_witness :
    (((get_pattern "CRANE".toList "TRACE".toList).filter
        fun s => decide (s = Sym.C)).length
      = (("CRANE".toList.zip "TRACE".toList).filter fun p => decide (p.1 = p.2)).length) ∧
    ((("CRANE".toList.zip (get_pattern "CRANE".toList "TRACE".toList)).filter
        fun p => decide (p.1 = 'E') && (decide (p.2 = Sym.C) || decide (p.2 = Sym.P))).length
      ≤ countLetter "TRACE".toList 'E') :=
  ⟨(get_pattern_counts "CRANE".toList "TRACE".toList (by decide) (by decide)).1,
   (get_pattern_counts "CRANE".toList "TRACE".toList (by decide) (by decide)).2 'E'⟩

/-! ### The candidate filter as the spec words it (C3, C10) -/

/-- The four filtering rules as the specification states them: (a) match
recorded correct letters, (b) contain all present letters, (c) contain no
absent letter unless it is a recorded correct value or a present letter,
(d) no present letter sits at a position where it is also the recorded
correct letter. -/
def specKeeps (g : Game) (w : Word) : Prop :=
  (∀ (i : Nat) (l : Char), g.correct[i]? = some l → l ≠ '?' → w[i]? = some l) ∧
  (∀ p ∈ g.present, p ∈ w) ∧
  (∀ a ∈ g.absent, a ∈ w →
    (∃ i : Nat, g.correct[i]? = some a ∧ a ≠ '?') ∨ a ∈ g.present) ∧
  (∀ (i : Nat) (l : Char), w[i]? = some l → l ∈ g.present →
    ¬(g.correct[i]? = some l ∧ l ≠ '?'))

theorem validWord_eq_true_iff (g : Game) (w : Word) :
    validWord g w = true ↔
      ((∀ q ∈ g.correct.enum, q.2 = '?' ∨ w[q.1]? = some q.2) ∧
       (∀ p ∈ g.present, p ∈ w) ∧
       (∀ a ∈ g.absent, ¬((a ∉ g.correct ∧ a ∉ g.present) ∧ a ∈ w)) ∧
       (∀ q ∈ w.enum, ¬(q.2 ∈ g.present ∧ g.correct[q.1]? = some q.2))) := by
  unfold validWord
  simp only [Bool.and_eq_true, List.all_eq_true, Bool.or_eq_true, decide_eq_true_eq,
    Bool.not_eq_true', List.any_eq_false, decide_eq_false_iff_not]
  constructor
  · rintro ⟨⟨⟨h1, h2⟩, h3⟩, h4⟩
    exact ⟨h1, h2, h3, h4⟩
  · rintro ⟨h1, h2, h3, h4⟩
    exact ⟨⟨⟨h1, h2⟩, h3⟩, h4⟩

theorem validWord_iff_specKeeps (g : Game) (w : Word)
    (hA : '?' ∉ g.absent) (hP : '?' ∉ g.present) :
    validWord g w = true ↔ specKeeps g w := by
  rw [validWord_eq_true_iff]
  unfold specKeeps
  constructor
  · rintro ⟨h1, h2, h3, h4⟩
    refine ⟨?_, h2, ?_, ?_⟩
    · intro i l hil hlq
      rcases h1 (i, l) (List.mem_enum_iff_getElem?.mpr hil) with hq | hq
      · exact absurd hq hlq
      · exact hq
    · intro a ha haw
      have hane : a ≠ '?' := fun hq => hA (hq ▸ ha)
      by_cases hp : a ∈ g.present
      · exact Or.inr hp
      · by_cases hc : a ∈ g.correct
        · obtain ⟨i, hi⟩ := List.mem_iff_getElem?.mp hc
          exact Or.inl ⟨i, hi, hane⟩
        · exact absurd ⟨⟨hc, hp⟩, haw⟩ (h3 a ha)
    · intro i l hw hl hcon
      exact h4 (i, l) (List.mem_enum_iff_getElem?.mpr hw) ⟨hl, hcon.1⟩
  · rintro ⟨s1, s2, s3, s4⟩
    refine ⟨?_, s2, ?_, ?_⟩
    · rintro ⟨i, c⟩ hq
      have hc : g.correct[i]? = some c := List.mem_enum_iff_getElem?.mp hq
      by_cases hcq : c = '?'
      · exact Or.inl hcq
      · exact Or.inr (s1 i c hc hcq)
    · rintro a ha ⟨⟨hnc, hnp⟩, haw⟩
      rcases s3 a ha haw with ⟨i, hi, _⟩ | hp
      · exact hnc (List.mem_iff_getElem?.mpr ⟨i, hi⟩)
      · exact hnp hp
    · rintro ⟨i, l⟩ hq ⟨hlp, hlc⟩
      have hw : w[i]? = some l := List.mem_enum_iff_getElem?.mp hq
      have hlne : l ≠ '?' := fun hql => hP (hql ▸ hlp)
      exact s4 i l hw hlp ⟨hlc, hlne⟩

/-- C3: after a non-empty feedback is folded into the board's constraints,
a word survives the candidate filter exactly when it was a candidate
before and satisfies the four spec rules against the updated board. -/
theorem update_game_filter_characterization (g : Game) (fb : List (Char × Sym)) (w : Word)
    (hfb : fb ≠ [])
    (hA : '?' ∉ (updateConstraints g fb).absent)
    (hP : '?' ∉ (updateConstraints g fb).present) :
    w ∈ (update_game g fb).possible ↔
      w ∈ g.possible ∧ specKeeps (updateConstraints g fb) w := by
  have hne : ¬(fb.isEmpty = true) := by simpa [List.isEmpty_iff] using hfb
  unfold update_game
  rw [if_neg hne]
  show w ∈ (updateConstraints g fb).possible.filter (validWord (updateConstraints g fb)) ↔ _
  rw [List.mem_filter, updateConstraints_possible,
    validWord_iff_specKeeps _ _ hA hP]

/-- C3 witness: guessing "CRANE" against the board that still holds both
"TRACE" and "CRANE", with the feedback the hidden word "TRACE" produces. -/
theorem update_game_filter_characterization_witness :
    "TRACE".toList ∈ (update_game (initGame ["TRACE".toList, "CRANE".toList])
        [('C', Sym.P), ('R', Sym.C), ('A', Sym.C), ('N', Sym.A), ('E', Sym.C)]).possible ↔
      "TRACE".toList ∈ (initGame ["TRACE".toList, "CRANE".toList]).possible ∧
        specKeeps (updateConstraints (initGame ["TRACE".toList, "CRANE".toList])
          [('C', Sym.P), ('R', Sym.C), ('A', Sym.C), ('N', Sym.A), ('E', Sym.C)])
          "TRACE".toList :=
  update_game_filter_characterization (initGame ["TRACE".toList, "CRANE".toList])
    [('C', Sym.P), ('R', Sym.C), ('A', Sym.C), ('N', Sym.A), ('E', Sym.C)]
    "TRACE".toList (by decide) (by decide) (by decide)

/-- C10: if the constraint update leaves a recorded correct letter that is
simultaneously a present letter, the filter wipes out every candidate. -/
theorem contradictory_state_empties (g : Game) (fb : List (Char × Sym))
    (i : Nat) (l : Char) (hfb : fb ≠ []) (hl : l ≠ '?')
    (hc : (updateConstraints g fb).correct[i]? = some l)
    (hp : l ∈ (updateConstraints g fb).present) :
    (update_game g fb).possible = [] := by
  have hne : ¬(fb.isEmpty = true) := by simpa [List.isEmpty_iff] using hfb
  unfold update_game
  rw [if_neg hne]
  show (updateConstraints g fb).possible.filter (validWord (updateConstraints g fb)) = []
  rw [List.filter_eq_nil_iff]
  intro w _ hvalid
  rw [validWord_eq_true_iff] at hvalid
  obtain ⟨h1, _, _, h4⟩ := hvalid
  rcases h1 (i, l) (List.mem_enum_iff_getElem?.mpr hc) with hq | hq
  · exact hl hq
  · exact h4 (i, l) (List.mem_enum_iff_getElem?.mpr hq) ⟨hp, hc⟩

/-- C10 witness: feedback marking 'A' Correct at position 0 and Present at
position 1 forces the contradictory state and empties the board. -/
theorem contradictory_state_empties_witness :
    (update_game (initGame ["TRACE".toList]) [('A', Sym.C), ('A', Sym.P)]).possible = [] :=
  contradictory_state_empties (initGame ["TRACE".toList]) [('A', Sym.C), ('A', Sym.P)]
    0 'A' (by decide) (by decide) (by decide) (by decide)

/-! ### Best-guess selection (C5, C6) -/

theorem bestLoop_spec (score : Word → ℝ) :
    ∀ (l : List Word) (b : Option Word) (bs : EReal),
      (∀ v ∈ l, ((score v : ℝ) : EReal) ≤ (bestLoop score l (b, bs)).2) ∧
      bs ≤ (bestLoop score l (b, bs)).2 ∧
      (((bestLoop score l (b, bs)).1 = b ∧ (bestLoop score l (b, bs)).2 = bs) ∨
        (∃ (i : Nat) (v : Word), l[i]? = some v ∧
          (bestLoop score l (b, bs)).1 = some v ∧
          (bestLoop score l (b, bs)).2 = ((score v : ℝ) : EReal) ∧
          bs < ((score v : ℝ) : EReal) ∧
          ∀ j, j < i → ∃ u, l[j]? = some u ∧
            ((score u : ℝ) : EReal) < ((score v : ℝ) : EReal))) := by
  intro l
  induction l with
  | nil =>
      intro b bs
      exact ⟨fun v hv => absurd hv (List.not_mem_nil v), le_refl bs, Or.inl ⟨rfl, rfl⟩⟩
  | cons w ws ih =>
      intro b bs
      by_cases h : bs < ((score w : ℝ) : EReal)
      · have hstep : bestLoop score (w :: ws) (b, bs)
            = bestLoop score ws (some w, ((score w : ℝ) : EReal)) := by
          simp [bestLoop, h]
        obtain ⟨ih1, ih2, ih3⟩ := ih (some w) ((score w : ℝ) : EReal)
        rw [hstep]
        refine ⟨?_, ?_, ?_⟩
        · intro v hv
          rcases List.mem_cons.mp hv with hv | hv
          · exact hv ▸ ih2
          · exact ih1 v hv
        · exact le_of_lt (lt_of_lt_of_le h ih2)
        · rcases ih3 with ⟨hb, hbs⟩ | ⟨i, v, hi, hv1, hv2, hv3, hv4⟩
          · refine Or.inr ⟨0, w, by simp, hb, hbs, h, ?_⟩
            intro j hj
            exact absurd hj (Nat.not_lt_zero j)
          · refine Or.inr ⟨i + 1, v, ?_, hv1, hv2, lt_trans h hv3, ?_⟩
            · simpa using hi
            · intro j hj
              cases j with
              | zero => exact ⟨w, by simp, hv3⟩
              | succ k =>
                  obtain ⟨u, hu1, hu2⟩ := hv4 k (by omega)
                  exact ⟨u, by simpa using hu1, hu2⟩
      · have hstep : bestLoop score (w :: ws) (b, bs) = bestLoop score ws (b, bs) := by
          simp [bestLoop, h]
        obtain ⟨ih1, ih2, ih3⟩ := ih b bs
        rw [hstep]
        have hw : ((score w : ℝ) : EReal) ≤ bs := not_lt.mp h
        refine ⟨?_, ih2, ?_⟩
        · intro v hv
          rcases List.mem_cons.mp hv with hv | hv
          · exact hv ▸ le_trans hw ih2
          · exact ih1 v hv
        · rcases ih3 with hleft | ⟨i, v, hi, hv1, hv2, hv3, hv4⟩
          · exact Or.inl hleft
          · refine Or.inr ⟨i + 1, v, by simpa using hi, hv1, hv2, hv3, ?_⟩
            intro j hj
            cases j with
            | zero => exact ⟨w, by simp, lt_of_le_of_lt hw hv3⟩
            | succ k =>
                obtain ⟨u, hu1, hu2⟩ := hv4 k (by omega)
                exact ⟨u, by simpa using hu1, hu2⟩

theorem active_empty_iff (games : List Game) :
    (games.filter fun g => !g.possible.isEmpty) = [] ↔ ∀ g ∈ games, g.possible = [] := by
  rw [List.filter_eq_nil_iff]
  constructor
  · intro h g hg
    have := h g hg
    simpa [List.isEmpty_iff] using this
  · intro h g hg
    simpa [List.isEmpty_iff] using h g hg

theorem bestLoop_argmax (score : Word → ℝ) (l : List Word) (hl : l ≠ []) :
    ∃ (i : Nat) (v : Word), l[i]? = some v ∧
      (bestLoop score l (none, ⊥)).1 = some v ∧
      (∀ u ∈ l, score u ≤ score v) ∧
      (∀ j, j < i → ∃ u, l[j]? = some u ∧ score u < score v) := by
  obtain ⟨h1, _, h3⟩ := bestLoop_spec score l none ⊥
  rcases h3 with ⟨_, hbs⟩ | ⟨i, v, hi, hv1, hv2, _, hv4⟩
  · obtain ⟨w, hw⟩ := List.exists_mem_of_ne_nil l hl
    have hle := h1 w hw
    rw [hbs] at hle
    exact absurd (le_bot_iff.mp hle) (EReal.coe_ne_bot _)
  · refine ⟨i, v, hi, hv1, ?_, ?_⟩
    · intro u hu
      have hle := h1 u hu
      rw [hv2] at hle
      exact_mod_cast hle
    · intro j hj
      obtain ⟨u, hu1, hu2⟩ := hv4 j hj
      exact ⟨u, hu1, by exact_mod_cast hu2⟩

/-- C5: with a non-empty allowed-guess list, `get_best_guess` returns
`none` exactly when every board's candidate set is empty. -/
theorem get_best_guess_none_iff (allowed : List Word) (games : List Game)
    (hal : allowed ≠ []) :
    get_best_guess allowed games = none ↔ ∀ g ∈ games, g.possible = [] := by
  simp only [get_best_guess]
  by_cases hact : (games.filter fun g => !g.possible.isEmpty).isEmpty
  · rw [if_pos hact]
    have hall : ∀ g ∈ games, g.possible = [] :=
      (active_empty_iff games).mp (by simpa [List.isEmpty_iff] using hact)
    exact iff_of_true rfl hall
  · rw [if_neg hact]
    have hne : allowed.take 2316 ≠ [] := by
      rw [Ne, List.take_eq_nil_iff]
      push_neg
      exact ⟨by norm_num, hal⟩
    obtain ⟨i, v, _, hv, _, _⟩ := bestLoop_argmax _ (allowed.take 2316) hne
    rw [hv]
    constructor
    · intro hcon
      exact absurd hcon (by simp)
    · intro hall
      exact absurd ((active_empty_iff games).mpr hall)
        (by simpa [List.isEmpty_iff] using hact)

/-- C5 witness: one allowed guess and an empty board list. -/
theorem get_best_guess_none_iff_witness :
    get_best_guess ["CRANE".toList] [] = none ↔
      ∀ g ∈ ([] : List Game), g.possible = [] :=
  get_best_guess_none_iff ["CRANE".toList] [] (by decide)

/-- C6: when a board is active (and guesses exist), the selection scans
exactly the first 2316 allowed guesses in their given order and returns
the first word reaching the maximal total entropy over the active boards:
every scanned word scores no higher, and every earlier word scores
strictly lower. -/
theorem get_best_guess_first_argmax (allowed : List Word) (games : List Game)
    (hact : ∃ g ∈ games, g.possible ≠ []) (hal : allowed ≠ []) :
    ∃ (i : Nat) (v : Word), (allowed.take 2316)[i]? = some v ∧
      get_best_guess allowed games = some v ∧
      (∀ u ∈ allowed.take 2316,
        calculate_entropy u (games.filter fun g => !g.possible.isEmpty)
          ≤ calculate_entropy v (games.filter fun g => !g.possible.isEmpty)) ∧
      (∀ j, j < i → ∃ u, (allowed.take 2316)[j]? = some u ∧
        calculate_entropy u (games.filter fun g => !g.possible.isEmpty)
          < calculate_entropy v (games.filter fun g => !g.possible.isEmpty)) := by
  have hactb : ¬((games.filter fun g => !g.possible.isEmpty).isEmpty = true) := by
    intro hcon
    obtain ⟨g, hg, hgp⟩ := hact
    exact hgp ((active_empty_iff games).mp
      (by simpa [List.isEmpty_iff] using hcon) g hg)
  have hne : allowed.take 2316 ≠ [] := by
    rw [Ne, List.take_eq_nil_iff]
    push_neg
    exact ⟨by norm_num, hal⟩
  obtain ⟨i, v, hi, hv, hmax, hfirst⟩ :=
    bestLoop_argmax (fun w => calculate_entropy w
      (games.filter fun g => !g.possible.isEmpty)) (allowed.take 2316) hne
  refine ⟨i, v, hi, ?_, hmax, hfirst⟩
  simp only [get_best_guess]
  rw [if_neg hactb]
  exact hv

/-- C6 witness: one active board holding "TRACE", one allowed guess. -/
theorem get_best_guess_first_argmax_witness :
    ∃ (i : Nat) (v : Word),
      (["CRANE".toList].take 2316)[i]? = some v ∧
      get_best_guess ["CRANE".toList] [initGame ["TRACE".toList]] = some v ∧
      (∀ u ∈ ["CRANE".toList].take 2316,
        calculate_entropy u ([initGame ["TRACE".toList]].filter fun g => !g.possible.isEmpty)
          ≤ calculate_entropy v
            ([initGame ["TRACE".toList]].filter fun g => !g.possible.isEmpty)) ∧
      (∀ j, j < i → ∃ u, (["CRANE".toList].take 2316)[j]? = some u ∧
        calculate_entropy u ([initGame ["TRACE".toList]].filter fun g => !g.possible.isEmpty)
          < calculate_entropy v
            ([initGame ["TRACE".toList]].filter fun g => !g.possible.isEmpty)) :=
  get_best_guess_first_argmax ["CRANE".toList] [initGame ["TRACE".toList]]
    ⟨initGame ["TRACE".toList], by decide⟩ (by decide)

/-! ### Entropy properties (C7) -/

theorem boardEntropy_nonneg (word : Word) (st : Game) : 0 ≤ boardEntropy word st := by
  unfold boardEntropy
  apply List.sum_nonneg
  intro x hx
  simp only [List.mem_map] at hx
  obtain ⟨q, hq, rfl⟩ := hx
  have hq' : q ∈ st.possible.map (fun p => get_pattern word p) := List.mem_dedup.mp hq
  have hmem : q ∈ (st.possible.map (fun p => get_pattern word p)).filter
      (fun r => decide (r = q)) :=
    List.mem_filter.mpr ⟨hq', by simp⟩
  have hc1 : 1 ≤ (((st.possible.map (fun p => get_pattern word p)).filter
      (fun r => decide (r = q))).length) :=
    List.length_pos.mpr (List.ne_nil_of_mem hmem)
  have hcn : (((st.possible.map (fun p => get_pattern word p)).filter
        (fun r => decide (r = q))).length)
      ≤ st.possible.length := by
    have h1 := List.length_filter_le (fun r => decide (r = q))
      (st.possible.map (fun p => get_pattern word p))
    simpa using h1
  set c : ℝ := (((st.possible.map (fun p => get_pattern word p)).filter
      (fun r => decide (r = q))).length : ℝ) with hc
  set n : ℝ := (st.possible.length : ℝ) with hn
  have hc_pos : (0 : ℝ) < c := by
    rw [hc]
    exact_mod_cast hc1
  have hcn' : c ≤ n := by
    rw [hc, hn]
    exact_mod_cast hcn
  have hn_pos : (0 : ℝ) < n := lt_of_lt_of_le hc_pos hcn'
  have hx0 : 0 ≤ c / n := div_nonneg hc_pos.le hn_pos.le
  have hx1 : c / n ≤ 1 := div_le_one_of_le₀ hcn' hn_pos.le
  have hlog : Real.logb 2 (c / n) ≤ 0 := Real.logb_nonpos (by norm_num) hx0 hx1
  have hrw : -(c / n) * Real.logb 2 (c / n) = (c / n) * -Real.logb 2 (c / n) := by ring
  rw [hrw]
  exact mul_nonneg hx0 (neg_nonneg.mpr hlog)

theorem calculate_entropy_fold_nonneg (word : Word) :
    ∀ (l : List Game) (acc : ℝ), 0 ≤ acc →
      0 ≤ l.foldl
        (fun acc st => if st.possible.isEmpty then acc else acc + boardEntropy word st) acc := by
  intro l
  induction l with
  | nil => intro acc h; exact h
  | cons g rest ih =>
      intro acc h
      rw [List.foldl_cons]
      by_cases hE : g.possible.isEmpty
      · rw [if_pos hE]
        exact ih acc h
      · rw [if_neg hE]
        exact ih _ (add_nonneg h (boardEntropy_nonneg word g))

theorem boardEntropy_singleton (word : Word) (st : Game) (p : Word)
    (hp : st.possible = [p]) : boardEntropy word st = 0 := by
  unfold boardEntropy
  rw [hp]
  simp [Real.logb_one]

theorem calculate_entropy_fold_small (word : Word) :
    ∀ (l : List Game) (acc : ℝ), (∀ g ∈ l, g.possible.length ≤ 1) →
      l.foldl
        (fun acc st => if st.possible.isEmpty then acc else acc + boardEntropy word st) acc
        = acc := by
  intro l
  induction l with
  | nil => intro acc _; rfl
  | cons g rest ih =>
      intro acc hall
      rw [List.foldl_cons]
      have hrest : ∀ x ∈ rest, x.possible.length ≤ 1 :=
        fun x hx => hall x (List.mem_cons_of_mem g hx)
      cases hposs : g.possible with
      | nil =>
          rw [if_pos (by simp [hposs])]
          exact ih acc hrest
      | cons p tail =>
          have hg := hall g (List.mem_cons_self g rest)
          rw [hposs, List.length_cons] at hg
          have htail : tail = [] := List.length_eq_zero.mp (by omega)
          subst htail
          rw [if_neg (by simp [hposs]), boardEntropy_singleton word g p hposs, add_zero]
          exact ih acc hrest

/-- C7: the total entropy of a guess is never negative, a board with an
empty candidate set contributes nothing to it, and it is exactly zero
whenever every board retains at most one candidate. -/
theorem calculate_entropy_props (word : Word) (games : List Game) :
    0 ≤ calculate_entropy word games ∧
    (∀ (gs1 gs2 : List Game) (g : Game), games = gs1 ++ g :: gs2 → g.possible = [] →
      calculate_entropy word games = calculate_entropy word (gs1 ++ gs2)) ∧
    ((∀ g ∈ games, g.possible.length ≤ 1) → calculate_entropy word games = 0) := by
  refine ⟨calculate_entropy_fold_nonneg word games 0 le_rfl, ?_, ?_⟩
  · intro gs1 gs2 g hsplit hg
    subst hsplit
    unfold calculate_entropy
    rw [List.foldl_append, List.foldl_append, List.foldl_cons, if_pos (by simp [hg])]
  · intro hall
    exact calculate_entropy_fold_small word games 0 hall

/-- C7 witness: a single board holding one candidate (entropy 0, and an
empty board spliced into a list is skipped). -/
theorem calculate_entropy_props_witness :
    (0 ≤ calculate_entropy "CRANE".toList [initGame ["TRACE".toList]] ∧
      calculate_entropy "CRANE".toList [initGame ["TRACE".toList]] = 0) ∧
    calculate_entropy "CRANE".toList [initGame []]
      = calculate_entropy "CRANE".toList [] :=
  ⟨⟨(calculate_entropy_props "CRANE".toList [initGame ["TRACE".toList]]).1,
    (calculate_entropy_props "CRANE".toList [initGame ["TRACE".toList]]).2.2 (by decide)⟩,
   (calculate_entropy_props "CRANE".toList [initGame []]).2.1 [] [] (initGame [])
     rfl rfl⟩

end Sedec
